import Mathlib

/-!
# Verification of the remacs interval tree (`src/rust_src/src/intervals.rs`)

The source implements a weight-balanced interval tree: every `Interval` owns
optional `left`/`right` children and a `Node` payload carrying `total_length`
(own span plus both subtrees), a `position` cache, four boolean text
properties and an opaque property list (`plist : LispObject`, default `Qnil`).

Shallow embedding choices:
* A Rust `Interval` together with its two `Option<Box<Interval>>` children is
  embedded as the inductive `Interval` below, with `.leaf` standing for the
  absence of a child (`None`) and `.node left data right` for a present cell.
* `LispObject` is used by the tree only through `is_nil` (emptiness of the
  property list); it is embedded as `Option Nat` with `Qnil = none`, an opaque
  payload otherwise.
* `usize` arithmetic is embedded as `Nat`; every subtraction in the source is
  kept in source order.  Theorem hypotheses (the `I1` invariant of the spec)
  rule out the underflows, matching the debug assertions in the source.
* Parent back-pointers are embedded as zipper crumbs (`Crumb`, `Loc`): a
  focused interval plus the list of ancestors, which is exactly the
  information reachable through the `parent` back-references.
* The `balance_self` loop and the `update` walk are not structurally
  recursive; they take explicit fuel.  All claims either hold for every fuel
  or are evaluated with ample fuel.
-/

namespace Remacs

/-- Opaque embedding of `LispObject`: the interval code only ever asks whether
the property list is `Qnil`. -/
abbrev LispObject := Option Nat

/-- `Qnil`, the empty/default property list. -/
def Qnil : LispObject := none

/-- `LispObject::is_nil`. -/
def LispObject.is_nil (o : LispObject) : Bool := o.isNone

/-- The `Node` payload of an interval (struct `Node` in the source). -/
structure Node where
  /-- Length of this interval and both children. -/
  total_length : Nat
  /-- Cache of the interval's character position. -/
  position : Nat
  write_protect : Bool
  visible : Bool
  front_sticky : Bool
  rear_sticky : Bool
  plist : LispObject
deriving Repr, DecidableEq

/-- `Node::new()`: the all-default payload. -/
def Node.new : Node :=
  { total_length := 0
    position := 0
    write_protect := false
    visible := false
    front_sticky := false
    rear_sticky := false
    plist := Qnil }

/-- An interval tree cell: `.leaf` is the absence of a child
(`Option::None` in the source), `.node l data r` a present `Interval` with its
two optional children. -/
inductive Interval where
  | leaf
  | node (left : Interval) (data : Node) (right : Interval)
deriving Repr, DecidableEq

namespace Interval

/-- `self.node.total_length` (0 for an absent child, as in
`left_total_length`/`right_total_length`'s `map_or(0, ..)`). -/
def total_length : Interval → Nat
  | .leaf => 0
  | .node _ nd _ => nd.total_length

/-- `Interval::left_total_length`. -/
def left_total_length : Interval → Nat
  | .leaf => 0
  | .node l _ _ => l.total_length

/-- `Interval::right_total_length`. -/
def right_total_length : Interval → Nat
  | .leaf => 0
  | .node _ _ r => r.total_length

/-- `Interval::length`: the node's own span,
`total_length - left_total_length - right_total_length`. -/
def length (t : Interval) : Nat :=
  t.total_length - t.left_total_length - t.right_total_length

/-- The root payload's `position` cache (0 for an absent child). -/
def position : Interval → Nat
  | .leaf => 0
  | .node _ nd _ => nd.position

/-- The root payload (`self.node`); `Node.new` for an absent child. -/
def node_data : Interval → Node
  | .leaf => Node.new
  | .node _ nd _ => nd

/-- The left child (`self.left`), with absence flattened to `.leaf`. -/
def left_tree : Interval → Interval
  | .leaf => .leaf
  | .node l _ _ => l

/-- The right child (`self.right`). -/
def right_tree : Interval → Interval
  | .leaf => .leaf
  | .node _ _ r => r

/-- `Interval::has_left`. -/
def has_left : Interval → Bool
  | .leaf => false
  | .node l _ _ => l != .leaf

/-- `Interval::has_right`. -/
def has_right : Interval → Bool
  | .leaf => false
  | .node _ _ r => r != .leaf

/-- `Interval::is_default`: the property list is `Qnil`. -/
def is_default (t : Interval) : Bool :=
  t.node_data.plist.is_nil

/-- Number of cells in the tree. -/
def size : Interval → Nat
  | .leaf => 0
  | .node l _ r => l.size + r.size + 1

/-- Invariant I1 of the spec: each cell's `total_length` strictly exceeds the
sum of its children's (i.e. its own length is positive), recursively. -/
def I1 : Interval → Bool
  | .leaf => true
  | .node l nd r =>
      (decide (l.total_length + r.total_length < nd.total_length)) && I1 l && I1 r

/-- The in-order-last (rightmost) cell of the tree. -/
def rightmost : Interval → Interval
  | .leaf => .leaf
  | .node l nd .leaf => .node l nd .leaf
  | .node _ _ (.node a b c) => rightmost (.node a b c)

/-- Erase the root payload's position cache (used to compare a returned
interval with a tree cell up to the cache refresh). -/
def clear_pos : Interval → Interval
  | .leaf => .leaf
  | .node l nd r => .node l { nd with position := 0 } r

/-- Follow left children `n` times. -/
def descend_left : Interval → Nat → Interval
  | t, 0 => t
  | .leaf, _ + 1 => .leaf
  | .node l _ _, n + 1 => descend_left l n

/-- The `total_length` payloads along the left spine, root first. -/
def left_spine_totals : Interval → List Nat
  | .leaf => []
  | .node l nd _ => nd.total_length :: left_spine_totals l

/-! ## Rotations

`Interval::rotate_left` (source lines 480-512) works by swapping the payloads
of `A` and its right child `B`, swapping child slots, and fixing up totals:

* the cell keeping `A`'s address ends with `B`'s payload, `total_length`
  restored to the pre-rotation total;
* the cell that moves to the left-child slot keeps `A`'s payload with
  `total_length -= B_total - c_total` (`c` being `B`'s former left child).

With no right child the function returns early (after the two debug
assertions), leaving the tree unchanged.  `rotate_right` is the mirror. -/

/-- `Interval::rotate_left`.  Early `return` (no right child) embeds as the
identity. -/
def rotate_left : Interval → Interval
  | .node d and (.node c bnd e) =>
      .node
        (.node d { and with total_length := and.total_length - (bnd.total_length - c.total_length) } c)
        { bnd with total_length := and.total_length }
        e
  | t => t

/-- `Interval::rotate_right`.  Early `return` (no left child) embeds as the
identity. -/
def rotate_right : Interval → Interval
  | .node (.node d bnd c) and e =>
      .node d
        { bnd with total_length := and.total_length }
        (.node c { and with total_length := and.total_length - (bnd.total_length - c.total_length) } e)
  | t => t

/-! ## Balancing

`Interval::balance_self` (source lines 616-651) is a fixpoint loop; it is not
structurally recursive, so the embedding takes fuel (running out of fuel
returns the current tree).  The source computes

* `old_diff = left_total_length - right_total_length` (as `isize`),
* for `old_diff > 0`: `new_diff = total_length - left.total_length +
  left.right_total_length() - left.left_total_length()` and breaks when
  `new_diff.abs() >= -old_diff` — note the sign: for positive `old_diff` the
  bound `-old_diff` is negative, so this branch always breaks;
* for `old_diff < 0`: the mirror expression, breaking when
  `new_diff.abs() >= -old_diff`, i.e. when the rotation would not strictly
  shrink the imbalance;
* after a rotation it recurses into the child that moved, then re-loops. -/

/-- `Interval::balance_self`, with fuel for the outer loop and the recursion
into the moved subtree. -/
def balance_self : Nat → Interval → Interval
  | 0, t => t
  | _ + 1, .leaf => .leaf
  | fuel + 1, .node l nd r =>
    let old_diff : Int := (l.total_length : Int) - (r.total_length : Int)
    if 0 < old_diff then
      match l with
      | .leaf => .node l nd r
      | .node la lnd lc =>
        let new_diff : Int := (nd.total_length : Int) - (lnd.total_length : Int)
          + (lc.total_length : Int) - (la.total_length : Int)
        if -old_diff ≤ (new_diff.natAbs : Int) then .node l nd r
        else
          match rotate_right (.node l nd r) with
          | .leaf => .leaf
          | .node a b c => balance_self fuel (.node a b (balance_self fuel c))
    else if old_diff < 0 then
      match r with
      | .leaf => .node l nd r
      | .node ra rnd rc =>
        let new_diff : Int := (nd.total_length : Int) - (rnd.total_length : Int)
          + (ra.total_length : Int) - (rc.total_length : Int)
        if -old_diff ≤ (new_diff.natAbs : Int) then .node l nd r
        else
          match rotate_left (.node l nd r) with
          | .leaf => .leaf
          | .node a b c => balance_self fuel (.node (balance_self fuel a) b c)
    else .node l nd r

/-! ## `find`

`Interval::find` (source lines 317-343) subtracts the buffer's begin offset
(0 for strings) from `position`, debug-asserts
`relative_position <= total_length`, calls `balance_possible_root` (which,
for a tree owned by a `LispObject`, is `balance_self`; the `set_intervals`
re-attachment calls are commented out in the source), then runs a weighted
binary search.  The loop and the final relative position are embedded
separately so that the position-cache formula can be stated. -/

/-- The descent loop of `Interval::find`: `pos` is the original argument,
`rel` the running `relative_position`. -/
def findLoop : Interval → Nat → Nat → Interval
  | .leaf, _, _ => .leaf
  | .node l nd r, pos, rel =>
    if rel < l.total_length then
      findLoop l pos rel
    else if r != .leaf && decide (nd.total_length - r.total_length ≤ rel) then
      findLoop r pos (rel - (nd.total_length - r.total_length))
    else
      .node l { nd with position := pos - rel + l.total_length } r

/-- The final value of `relative_position` along `findLoop`'s descent. -/
def findRel : Interval → Nat → Nat
  | .leaf, rel => rel
  | .node l nd r, rel =>
    if rel < l.total_length then
      findRel l rel
    else if r != .leaf && decide (nd.total_length - r.total_length ≤ rel) then
      findRel r (rel - (nd.total_length - r.total_length))
    else rel

/-- `Interval::find` on a tree owned by its container: subtract the
container's begin offset `beg`, rebalance the root (`balance_possible_root`),
then run the weighted binary search. -/
def find (fuel : Nat) (t : Interval) (pos beg : Nat) : Interval :=
  findLoop (balance_self fuel t) pos (pos - beg)

end Interval

/-! ## Parent back-references as a zipper

A Rust `Interval` reached inside a tree knows its ancestors through the
`parent` back-pointer.  The embedding keeps the same information as a list of
crumbs: each crumb records whether the focused cell is its parent's left or
right child, the parent's payload, and the sibling subtree.  An empty crumb
list corresponds to `Parent::Object(..)` (the root). -/

/-- One ancestor step. -/
inductive Crumb where
  /-- The focus is the *left* child of a parent with payload `pnd` whose right
  child is `rsib`. -/
  | left_child (pnd : Node) (rsib : Interval)
  /-- The focus is the *right* child of a parent with payload `pnd` whose left
  child is `lsib`. -/
  | right_child (lsib : Interval) (pnd : Node)
deriving Repr, DecidableEq

/-- A focused cell: its two children, its payload and its ancestors. -/
structure Loc where
  l : Interval
  nd : Node
  r : Interval
  crumbs : List Crumb
deriving Repr, DecidableEq

namespace Loc

/-- The subtree rooted at the focused cell. -/
def focus (loc : Loc) : Interval := .node loc.l loc.nd loc.r

/-- `Interval::length` of the focused cell. -/
def length (loc : Loc) : Nat := loc.focus.length

/-- `Interval::last_pos` of the focused cell:
`self.node.position + self.length()`. -/
def last_pos (loc : Loc) : Nat := loc.nd.position + loc.length

end Loc

namespace Interval

/-- The side effect of `Interval::next`'s first (discarded) descent: walk to
the leftmost cell and refresh its `position` cache. -/
def set_leftmost_position : Interval → Nat → Interval
  | .leaf, _ => .leaf
  | .node .leaf nd r, p => .node .leaf { nd with position := p } r
  | .node (.node a b c) nd r, p =>
      .node (set_leftmost_position (.node a b c) p) nd r

/-- The parent-ascent loop of `Interval::next`: climb until the current cell
is a left child; its parent (position cache set to `npos`) is the result.  At
the root (`Parent::Object`) the loop breaks with `None`. -/
def next_ascend : Interval → List Crumb → Nat → Option Loc
  | t, .left_child pnd rsib :: rest, npos =>
      some ⟨t, { pnd with position := npos }, rsib, rest⟩
  | t, .right_child lsib pnd :: rest, npos =>
      next_ascend (.node lsib pnd t) rest npos
  | _, [], _ => none

/-- `Interval::next` (source lines 249-275), embedded faithfully: the
leftmost-descendant-of-the-right-child descent happens inside
`self.right_mut().map(..)` whose result is *discarded* (the statement ends
with `;`), so only its position-cache side effect survives, and the function
then always runs the parent-ascent loop starting from `self`. -/
def next (loc : Loc) : Option Loc :=
  let next_position := loc.nd.position + loc.length
  let r2 := set_leftmost_position loc.r next_position
  next_ascend (.node loc.l loc.nd r2) loc.crumbs next_position

end Interval

/-- Result of `Interval::update`: the found cell, one of the two
`error!` calls (`"Point before start of properties"` /
`"Point {} after end of properties"`), fuel exhaustion of the embedding, or a
`stuck` marker for the two `unwrap()`s that the guarding conditions make
unreachable. -/
inductive UpdResult where
  | found (loc : Loc)
  | errBefore
  | errAfter
  | noFuel
  | stuck
deriving Repr, DecidableEq

namespace Interval

/-- `Interval::update` (source lines 350-384): walk up while the target
`position` precedes the focused cell, down-left/down-right when the target is
inside a child's span (refreshing that child's position cache from the
focused cell's), and `error!` when no parent remains while still out of
range. -/
def update : Nat → Loc → Nat → UpdResult
  | 0, _, _ => .noFuel
  | fuel + 1, loc, p =>
    if p < loc.nd.position then
      if loc.nd.position - loc.l.total_length ≤ p then
        match loc.l with
        | .node ll lnd lr =>
            update fuel
              ⟨ll,
               { lnd with position :=
                   loc.nd.position - lnd.total_length + ll.total_length },
               lr,
               .left_child loc.nd loc.r :: loc.crumbs⟩ p
        | .leaf => .stuck
      else
        match loc.crumbs with
        | .left_child pnd rsib :: rest => update fuel ⟨loc.focus, pnd, rsib, rest⟩ p
        | .right_child lsib pnd :: rest => update fuel ⟨lsib, pnd, loc.focus, rest⟩ p
        | [] => .errBefore
    else if loc.last_pos ≤ p then
      if p < loc.last_pos + loc.r.total_length then
        match loc.r with
        | .node rl rnd rr =>
            update fuel
              ⟨rl,
               { rnd with position := loc.last_pos + rl.total_length },
               rr,
               .right_child loc.l loc.nd :: loc.crumbs⟩ p
        | .leaf => .stuck
      else
        match loc.crumbs with
        | .left_child pnd rsib :: rest => update fuel ⟨loc.focus, pnd, rsib, rest⟩ p
        | .right_child lsib pnd :: rest => update fuel ⟨lsib, pnd, loc.focus, rest⟩ p
        | [] => .errAfter
    else .found loc

/-! ## `split_left`

`Interval::split_left` (source lines 686-710): create a fresh default cell,
give it the original position and `total_length = offset` (plus the absorbed
former left child's total), advance the original cell's position by `offset`,
balance the new subtree, install it as the left child, and run
`balance_possible_root` — which rebalances exactly when the cell is owned by
a `LispObject` (`is_root`).  The source returns `self.left_mut().unwrap()`,
i.e. the left child of the cell *after* that final rebalance; the embedding
returns the whole post-split subtree, the source's return value being its
`left_tree`. -/

/-- `Interval::split_left`.  `is_root` tells whether `self.object()` is
`Some`, which decides whether `balance_possible_root` rebalances. -/
def split_left (is_root : Bool) (fuel : Nat) : Interval → Nat → Interval
  | .leaf, _ => .leaf
  | .node l nd r, offset =>
    let newPiece : Interval :=
      match l with
      | .leaf =>
          .node .leaf { Node.new with position := nd.position, total_length := offset } .leaf
      | .node la lnd lc =>
          balance_self fuel
            (.node (.node la lnd lc)
              { Node.new with position := nd.position
                              total_length := offset + lnd.total_length }
              .leaf)
    let t2 : Interval := .node newPiece { nd with position := nd.position + offset } r
    if is_root then balance_self fuel t2 else t2

/-! ## `delete`

`Interval::delete` (source lines 387-412) merges the children into one
subtree replacing the node.  With two children, the right subtree's total is
raised by the left's total, the walk to the right subtree's leftmost cell
raises every visited cell's total by the same amount, and the left subtree is
attached there as the new left child. -/

/-- The body of `Interval::delete`'s merge walk below the right subtree's
root: each visited cell (a cell of the left spine, *entered* by the `while`
loop) gets its total raised by `amount`, and `newLeft` is attached as the
left child of the leftmost cell. -/
def add_left_spine_go (amount : Nat) (newLeft : Interval) : Interval → Interval
  | .leaf => .leaf
  | .node .leaf b c =>
      .node newLeft { b with total_length := b.total_length + amount } c
  | .node (.node x y z) b c =>
      .node (add_left_spine_go amount newLeft (.node x y z))
        { b with total_length := b.total_length + amount } c

/-- The two-children merge walk of `Interval::delete`, starting at the right
subtree's root (whose total the caller has already raised): if it has no left
child, `newLeft` is attached right below it, otherwise the walk descends. -/
def add_left_spine (amount : Nat) (newLeft : Interval) : Interval → Interval
  | .leaf => .leaf
  | .node .leaf nd r => .node newLeft nd r
  | .node (.node a b c) nd r =>
      .node (add_left_spine_go amount newLeft (.node a b c)) nd r

/-- `Interval::delete`: the subtree that replaces the deleted cell. -/
def delete : Interval → Interval
  | .leaf => .leaf
  | .node .leaf nd .leaf => .node .leaf nd .leaf
  | .node (.node a b c) _ .leaf => .node a b c
  | .node .leaf _ (.node a b c) => .node a b c
  | .node (.node la lb lc) _ (.node ra rb rc) =>
      add_left_spine lb.total_length (.node la lb lc)
        (.node ra { rb with total_length := rb.total_length + lb.total_length } rc)

/-- `Interval::reset` (source lines 771-780): drop both children and rebuild
the payload with `total_length`, `position` and `plist` defaulted — the four
boolean flags are kept by the `..self.node` struct update. -/
def reset : Interval → Interval
  | .leaf => .leaf
  | .node _ nd _ =>
      .node .leaf { nd with total_length := 0, position := 0, plist := Qnil } .leaf

end Interval

/-! ## Concrete sample inputs used by the per-claim theorems -/

/-- A single-interval tree of total length 3 (sample input for C1). -/
def exC1 : Interval := .node .leaf { Node.new with total_length := 3 } .leaf

/-- A left-heavy chain (totals 6/4/2, each cell's own length 2): the sample
input on which the spec's balance condition demands a right rotation. -/
def exC2 : Interval :=
  .node (.node (.node .leaf { Node.new with total_length := 2 } .leaf)
      { Node.new with total_length := 4 } .leaf)
    { Node.new with total_length := 6 } .leaf

/-- A root interval (no parent crumbs) of total length 10 with a right child
of total length 4 (sample input for C3). -/
def exC3 : Loc :=
  ⟨.leaf, { Node.new with total_length := 10 },
    .node .leaf { Node.new with total_length := 4 } .leaf, []⟩

/-- A single-interval tree of total length 5 (sample input for C4). -/
def exC4 : Interval := .node .leaf { Node.new with total_length := 5 } .leaf

/-- `exC4` focused as a root location. -/
def locC4 : Loc := ⟨.leaf, { Node.new with total_length := 5 }, .leaf, []⟩

/-- A root interval with a non-default property list, own length 3 and a
right child of total length 8 (sample input for C5). -/
def exC5 : Interval :=
  .node .leaf
    { Node.new with total_length := 11, write_protect := true, plist := some 5 }
    (.node .leaf { Node.new with total_length := 8 } .leaf)

/-- The spec's concrete rotation scenario: root of total length 10 with one
left child of total length 5 (sample input for C7 and C8). -/
def exC7 : Interval :=
  .node (.node .leaf { Node.new with total_length := 5 } .leaf)
    { Node.new with total_length := 10 } .leaf

/-- A valid two-cell tree (sample input for the C8 witness). -/
def exC8 : Interval :=
  .node (.node .leaf { Node.new with total_length := 2 } .leaf)
    { Node.new with total_length := 5 } .leaf

/-- A childless interval of total length 10 (sample input for C9). -/
def exC9 : Interval := .node .leaf { Node.new with total_length := 10 } .leaf

/-- An interval with only a right child (sample input for the C9 witness:
`rotate_right` requires a left child, which is absent here). -/
def exC9b : Interval :=
  .node .leaf { Node.new with total_length := 9 }
    (.node .leaf { Node.new with total_length := 4 } .leaf)

/-- An interval with a set flag and a non-nil property list (sample input for
C10). -/
def exC10 : Interval :=
  .node (.node .leaf { Node.new with total_length := 2 } .leaf)
    { Node.new with total_length := 7, write_protect := true, plist := some 3 }
    .leaf

/-! ## Helper lemmas -/

namespace Interval

lemma I1_node_iff {l r : Interval} {nd : Node} :
    I1 (.node l nd r) = true ↔
      l.total_length + r.total_length < nd.total_length ∧ I1 l = true ∧ I1 r = true := by
  simp [I1, and_assoc]

lemma total_length_pos_of_I1 {t : Interval} (hne : t ≠ .leaf) (h : I1 t = true) :
    0 < t.total_length := by
  match t with
  | .leaf => exact absurd rfl hne
  | .node l nd r =>
    rw [I1_node_iff] at h
    simp only [total_length]
    omega

lemma rotate_left_total_length (t : Interval) :
    (rotate_left t).total_length = t.total_length := by
  match t with
  | .leaf => rfl
  | .node d a .leaf => rfl
  | .node d a (.node c b e) => simp [rotate_left, total_length]

lemma rotate_right_total_length (t : Interval) :
    (rotate_right t).total_length = t.total_length := by
  match t with
  | .leaf => rfl
  | .node .leaf a e => rfl
  | .node (.node d b c) a e => simp [rotate_right, total_length]

lemma rotate_left_ne_leaf {t : Interval} (hne : t ≠ .leaf) : rotate_left t ≠ .leaf := by
  match t with
  | .node d a .leaf => simp [rotate_left]
  | .node d a (.node c b e) => simp [rotate_left]

lemma rotate_right_ne_leaf {t : Interval} (hne : t ≠ .leaf) : rotate_right t ≠ .leaf := by
  match t with
  | .node .leaf a e => simp [rotate_right]
  | .node (.node d b c) a e => simp [rotate_right]

lemma rotate_left_I1 {t : Interval} (h : I1 t = true) : I1 (rotate_left t) = true := by
  match t with
  | .leaf => exact h
  | .node d a .leaf => simpa [rotate_left] using h
  | .node d a (.node c b e) =>
    rw [I1_node_iff] at h
    obtain ⟨hroot, hd, hr⟩ := h
    rw [I1_node_iff] at hr
    obtain ⟨hb, hc, he⟩ := hr
    simp only [rotate_left]
    rw [I1_node_iff, I1_node_iff]
    simp only [total_length] at hroot hb ⊢
    refine ⟨by omega, ⟨by omega, hd, hc⟩, he⟩

lemma rotate_right_I1 {t : Interval} (h : I1 t = true) : I1 (rotate_right t) = true := by
  match t with
  | .leaf => exact h
  | .node .leaf a e => simpa [rotate_right] using h
  | .node (.node d b c) a e =>
    rw [I1_node_iff] at h
    obtain ⟨hroot, hl, he⟩ := h
    rw [I1_node_iff] at hl
    obtain ⟨hb, hd, hc⟩ := hl
    simp only [rotate_right]
    rw [I1_node_iff, I1_node_iff]
    simp only [total_length] at hroot hb ⊢
    refine ⟨by omega, hd, by omega, hc, he⟩

lemma balance_self_total_length :
    ∀ (fuel : Nat) (t : Interval), (balance_self fuel t).total_length = t.total_length := by
  intro fuel
  induction fuel with
  | zero => intro t; rfl
  | succ n ih =>
    intro t
    match t with
    | .leaf => rfl
    | .node l nd r =>
      simp only [balance_self]
      split
      · split
        · rfl
        · split
          · rfl
          · split
            · next heq => exact absurd heq (rotate_right_ne_leaf (by simp))
            · next a b c heq =>
              rw [ih]
              have h2 := congrArg total_length heq
              rw [rotate_right_total_length] at h2
              simp only [total_length] at h2 ⊢
              omega
      · split
        · split
          · rfl
          · split
            · rfl
            · split
              · next heq => exact absurd heq (rotate_left_ne_leaf (by simp))
              · next a b c heq =>
                rw [ih]
                have h2 := congrArg total_length heq
                rw [rotate_left_total_length] at h2
                simp only [total_length] at h2 ⊢
                omega
        · rfl

lemma balance_self_I1 :
    ∀ (fuel : Nat) (t : Interval), I1 t = true → I1 (balance_self fuel t) = true := by
  intro fuel
  induction fuel with
  | zero => intro t h; exact h
  | succ n ih =>
    intro t h
    match t with
    | .leaf => exact h
    | .node l nd r =>
      simp only [balance_self]
      split
      · split
        · exact h
        · split
          · exact h
          · split
            · next heq => exact absurd heq (rotate_right_ne_leaf (by simp))
            · next a b c heq =>
              have hrot : I1 (Interval.node a b c) = true := heq ▸ rotate_right_I1 h
              rw [I1_node_iff] at hrot
              obtain ⟨hlt, ha, hc⟩ := hrot
              refine ih _ ?_
              rw [I1_node_iff]
              exact ⟨by rw [balance_self_total_length]; exact hlt, ha, ih _ hc⟩
      · split
        · split
          · exact h
          · split
            · exact h
            · split
              · next heq => exact absurd heq (rotate_left_ne_leaf (by simp))
              · next a b c heq =>
                have hrot : I1 (Interval.node a b c) = true := heq ▸ rotate_left_I1 h
                rw [I1_node_iff] at hrot
                obtain ⟨hlt, ha, hc⟩ := hrot
                refine ih _ ?_
                rw [I1_node_iff]
                exact ⟨by rw [balance_self_total_length]; exact hlt, ih _ ha, hc⟩
        · exact h

lemma balance_self_ne_leaf (fuel : Nat) {t : Interval}
    (hne : t ≠ .leaf) (h : I1 t = true) : balance_self fuel t ≠ .leaf := by
  intro hcontra
  have h2 := total_length_pos_of_I1 hne h
  have h1 := balance_self_total_length fuel t
  rw [hcontra] at h1
  rw [← h1] at h2
  simp [total_length] at h2

lemma total_length_leaf : (Interval.leaf).total_length = 0 := rfl

lemma total_length_node (l : Interval) (nd : Node) (r : Interval) :
    (Interval.node l nd r).total_length = nd.total_length := rfl

lemma position_node (l : Interval) (nd : Node) (r : Interval) :
    (Interval.node l nd r).position = nd.position := rfl

lemma left_total_length_node (l : Interval) (nd : Node) (r : Interval) :
    (Interval.node l nd r).left_total_length = l.total_length := rfl

lemma right_total_length_node (l : Interval) (nd : Node) (r : Interval) :
    (Interval.node l nd r).right_total_length = r.total_length := rfl

lemma length_node (l : Interval) (nd : Node) (r : Interval) :
    (Interval.node l nd r).length = nd.total_length - l.total_length - r.total_length := rfl

lemma total_length_eq_zero_of_leaf {l : Interval} (h : l = .leaf) : l.total_length = 0 := by
  rw [h]; rfl

lemma findLoop_node (l : Interval) (nd : Node) (r : Interval) (pos rel : Nat) :
    findLoop (.node l nd r) pos rel =
      if rel < l.total_length then
        findLoop l pos rel
      else if r != .leaf && decide (nd.total_length - r.total_length ≤ rel) then
        findLoop r pos (rel - (nd.total_length - r.total_length))
      else
        .node l { nd with position := pos - rel + l.total_length } r := rfl

lemma findRel_node (l : Interval) (nd : Node) (r : Interval) (rel : Nat) :
    findRel (.node l nd r) rel =
      if rel < l.total_length then
        findRel l rel
      else if r != .leaf && decide (nd.total_length - r.total_length ≤ rel) then
        findRel r (rel - (nd.total_length - r.total_length))
      else rel := rfl

lemma rightmost_node_leaf (l : Interval) (nd : Node) :
    rightmost (.node l nd .leaf) = .node l nd .leaf := rfl

lemma rightmost_node_node (l : Interval) (nd : Node) (a : Interval) (b : Node) (c : Interval) :
    rightmost (.node l nd (.node a b c)) = rightmost (.node a b c) := rfl

lemma findLoop_coverage :
    ∀ (t : Interval) (pos rel : Nat), I1 t = true → t ≠ .leaf → rel ≤ pos →
      rel < t.total_length →
      (findLoop t pos rel).position ≤ pos ∧
        pos < (findLoop t pos rel).position + (findLoop t pos rel).length := by
  intro t
  induction t with
  | leaf => intro pos rel _ hne; exact absurd rfl hne
  | node l nd r ihl ihr =>
    intro pos rel hI1 _ hrelpos hrel
    rw [I1_node_iff] at hI1
    obtain ⟨hlt, hl, hr⟩ := hI1
    rw [total_length_node] at hrel
    rw [findLoop_node]
    split
    · next hcond =>
      have hlne : l ≠ .leaf := by
        intro hleaf
        rw [total_length_eq_zero_of_leaf hleaf] at hcond
        omega
      exact ihl pos rel hl hlne hrelpos hcond
    · next hcond1 =>
      rw [not_lt] at hcond1
      split
      · next hcond2 =>
        simp only [Bool.and_eq_true, bne_iff_ne, ne_eq, decide_eq_true_eq] at hcond2
        obtain ⟨hrne, hbound⟩ := hcond2
        refine ihr pos _ hr hrne (by omega) (by omega)
      · next hcond2 =>
        simp only [Bool.and_eq_true, bne_iff_ne, ne_eq, decide_eq_true_eq, not_and, not_le]
          at hcond2
        simp only [position_node, length_node, left_total_length_node, right_total_length_node,
          total_length_node]
        rcases Decidable.em (r = .leaf) with hrleaf | hrne
        · have h0 := total_length_eq_zero_of_leaf hrleaf
          omega
        · have hbound := hcond2 hrne
          omega

lemma findLoop_at_end :
    ∀ (t : Interval) (pos : Nat), I1 t = true → t ≠ .leaf → t.total_length ≤ pos →
      clear_pos (findLoop t pos t.total_length) = clear_pos (rightmost t) ∧
      pos = (findLoop t pos t.total_length).position +
              (findLoop t pos t.total_length).length := by
  intro t
  induction t with
  | leaf => intro pos _ hne; exact absurd rfl hne
  | node l nd r ihl ihr =>
    intro pos hI1 _ hpos
    rw [I1_node_iff] at hI1
    obtain ⟨hlt, hl, hr⟩ := hI1
    rw [total_length_node] at hpos
    rw [total_length_node, findLoop_node]
    match r with
    | .leaf =>
      rw [total_length_eq_zero_of_leaf (rfl : (Interval.leaf : Interval) = .leaf)] at hlt
      rw [if_neg (by omega), if_neg (by simp)]
      refine ⟨by rw [rightmost_node_leaf]; rfl, ?_⟩
      simp only [position_node, length_node, left_total_length_node, right_total_length_node,
        total_length_node, total_length_leaf]
      omega
    | .node ra rnd rc =>
      have hrne : (Interval.node ra rnd rc) ≠ .leaf := by simp
      have hrtot : (Interval.node ra rnd rc).total_length ≤ nd.total_length := by omega
      rw [if_neg (by rw [not_lt]; omega),
        if_pos (by simp only [Bool.and_eq_true, bne_iff_ne, ne_eq, decide_eq_true_eq]
                   exact ⟨hrne, by omega⟩)]
      have harg : nd.total_length -
          (nd.total_length - (Interval.node ra rnd rc).total_length) =
          (Interval.node ra rnd rc).total_length := by omega
      rw [harg, rightmost_node_node]
      exact ihr pos hr hrne (le_trans hrtot hpos)

lemma findLoop_position_cache :
    ∀ (t : Interval) (pos rel : Nat), t ≠ .leaf →
      (findLoop t pos rel).position =
        pos - findRel t rel + (findLoop t pos rel).left_total_length := by
  intro t
  induction t with
  | leaf => intro pos rel hne; exact absurd rfl hne
  | node l nd r ihl ihr =>
    intro pos rel _
    rw [findLoop_node, findRel_node]
    split
    · next hcond =>
      have hlne : l ≠ .leaf := by
        intro hleaf
        rw [total_length_eq_zero_of_leaf hleaf] at hcond
        omega
      exact ihl pos rel hlne
    · split
      · next hcond2 =>
        simp only [Bool.and_eq_true, bne_iff_ne, ne_eq, decide_eq_true_eq] at hcond2
        exact ihr pos _ hcond2.1
      · simp only [position_node, left_total_length_node]

end Interval

namespace Interval

lemma add_left_spine_go_spine (amount : Nat) (newLeft : Interval) :
    ∀ (a : Interval) (b : Node) (c : Interval),
      left_spine_totals (add_left_spine_go amount newLeft (.node a b c)) =
        (left_spine_totals (.node a b c)).map (· + amount) ++
          left_spine_totals newLeft := by
  intro a
  induction a with
  | leaf =>
    intro b c
    simp [add_left_spine_go, left_spine_totals]
  | node x y z ihx ihz =>
    intro b c
    simp only [add_left_spine_go, left_spine_totals, List.map_cons, List.cons_append,
      ihx y z]

lemma add_left_spine_go_descend (amount : Nat) (newLeft : Interval) :
    ∀ (a : Interval) (b : Node) (c : Interval),
      descend_left (add_left_spine_go amount newLeft (.node a b c))
        (left_spine_totals (.node a b c)).length = newLeft := by
  intro a
  induction a with
  | leaf => intro b c; simp [add_left_spine_go, left_spine_totals, descend_left]
  | node x y z ihx ihz =>
    intro b c
    simp only [add_left_spine_go, left_spine_totals, List.length_cons, descend_left]
    exact ihx y z

end Interval

namespace Interval

lemma update_in_range :
    ∀ (fuel : Nat) (l : Interval) (nd : Node) (r : Interval) (cs : List Crumb) (p : Nat),
      I1 (.node l nd r) = true →
      l.total_length ≤ nd.position →
      (Interval.node l nd r).size ≤ fuel →
      nd.position - l.total_length ≤ p →
      p < nd.position + (Interval.node l nd r).length + r.total_length →
      ∃ loc2 : Loc, update fuel ⟨l, nd, r, cs⟩ p = .found loc2 ∧
        loc2.nd.position ≤ p ∧
        p < loc2.nd.position + (Interval.node loc2.l loc2.nd loc2.r).length := by
  intro fuel
  induction fuel with
  | zero =>
    intro l nd r cs p _ _ hsize _ _
    simp only [size] at hsize
    omega
  | succ n ih =>
    intro l nd r cs p hI1 hpos hsize hlo hhi
    rw [I1_node_iff] at hI1
    obtain ⟨hlt, hl, hr⟩ := hI1
    rw [length_node] at hhi
    simp only [update, Loc.last_pos, Loc.length, Loc.focus, length_node]
    split
    · next hplt =>
      cases l with
      | leaf =>
        rw [total_length_leaf] at hlo
        exact absurd hplt (by omega)
      | node ll lnd lr =>
        rw [total_length_node] at hlt hpos hlo
        rw [I1_node_iff] at hl
        obtain ⟨hllt, hll, hlr⟩ := hl
        simp only [size] at hsize
        have hA : I1 (.node ll { lnd with position :=
            nd.position - lnd.total_length + ll.total_length } lr) = true := by
          rw [I1_node_iff]
          exact ⟨hllt, hll, hlr⟩
        have hB : ll.total_length ≤
            nd.position - lnd.total_length + ll.total_length := by omega
        have hC : (Interval.node ll { lnd with position :=
            nd.position - lnd.total_length + ll.total_length } lr).size ≤ n := by
          simp only [size]
          omega
        have hD : (nd.position - lnd.total_length + ll.total_length) -
            ll.total_length ≤ p := by omega
        have hE : p < (nd.position - lnd.total_length + ll.total_length) +
            (lnd.total_length - ll.total_length - lr.total_length) +
            lr.total_length := by omega
        exact ih ll { lnd with position :=
            nd.position - lnd.total_length + ll.total_length } lr
          (.left_child nd r :: cs) p hA hB hC hD hE
    · next hplt =>
      rw [not_lt] at hplt
      split
      · next hge =>
        cases r with
        | leaf =>
          rw [total_length_leaf] at hge hhi
          exact absurd hhi (by omega)
        | node rl rnd rr =>
          rw [total_length_node] at hlt hge hhi
          rw [I1_node_iff] at hr
          obtain ⟨hrlt, hrl, hrr⟩ := hr
          simp only [size] at hsize
          have hA : I1 (.node rl { rnd with position :=
              nd.position + (nd.total_length - l.total_length - rnd.total_length) +
                rl.total_length } rr) = true := by
            rw [I1_node_iff]
            exact ⟨hrlt, hrl, hrr⟩
          have hB : rl.total_length ≤
              nd.position + (nd.total_length - l.total_length - rnd.total_length) +
                rl.total_length := by omega
          have hC : (Interval.node rl { rnd with position :=
              nd.position + (nd.total_length - l.total_length - rnd.total_length) +
                rl.total_length } rr).size ≤ n := by
            simp only [size]
            omega
          have hD : (nd.position + (nd.total_length - l.total_length - rnd.total_length) +
              rl.total_length) - rl.total_length ≤ p := by omega
          have hE : p < (nd.position +
              (nd.total_length - l.total_length - rnd.total_length) + rl.total_length) +
              (rnd.total_length - rl.total_length - rr.total_length) +
              rr.total_length := by omega
          exact ih rl { rnd with position :=
              nd.position + (nd.total_length - l.total_length - rnd.total_length) +
                rl.total_length } rr
            (.right_child l nd :: cs) p hA hB hC hD hE
      · next hge =>
        rw [not_le] at hge
        refine ⟨⟨l, nd, r, cs⟩, rfl, ?_, ?_⟩
        · show nd.position ≤ p
          omega
        · show p < nd.position + (Interval.node l nd r).length
          rw [length_node]
          omega

lemma update_root_err_before (n : Nat) (l : Interval) (nd : Node) (r : Interval) (p : Nat)
    (hp : p < nd.position - l.total_length) :
    update (n + 1) ⟨l, nd, r, []⟩ p = .errBefore := by
  simp only [update]
  rw [if_pos (by omega), if_neg (by omega)]

lemma update_root_err_after (n : Nat) (l : Interval) (nd : Node) (r : Interval) (p : Nat)
    (hp : nd.position + (Interval.node l nd r).length + r.total_length ≤ p) :
    update (n + 1) ⟨l, nd, r, []⟩ p = .errAfter := by
  rw [length_node] at hp
  simp only [update, Loc.last_pos, Loc.length, Loc.focus, length_node]
  rw [if_neg (by omega), if_pos (by omega), if_neg (by omega)]

end Interval

/-! ## Claim theorems -/

open Interval

/-- **C1**: on a tree satisfying I1, for `beg ≤ pos` with relative position
`pos - beg ≤ total_length`, `find` returns an interval `n` with
`n.position ≤ pos < n.position + n.length` whenever the relative position is
strictly inside the tree; at exactly `total_length` it returns the last
(rightmost) interval of the (rebalanced) tree with
`pos = n.position + n.length`; and the returned interval's position cache
equals `pos − relative_position + left_total_length` for the final relative
position of the descent. -/
theorem C1_find_point_coverage (fuel pos beg : Nat) (t : Interval)
    (hI1 : I1 t = true) (hne : t ≠ .leaf) (hbeg : beg ≤ pos)
    (hrange : pos - beg ≤ t.total_length) :
    (pos - beg < t.total_length →
        (find fuel t pos beg).position ≤ pos ∧
          pos < (find fuel t pos beg).position + (find fuel t pos beg).length) ∧
    (pos - beg = t.total_length →
        pos = (find fuel t pos beg).position + (find fuel t pos beg).length ∧
          clear_pos (find fuel t pos beg) =
            clear_pos (rightmost (balance_self fuel t))) ∧
    (find fuel t pos beg).position =
        pos - findRel (balance_self fuel t) (pos - beg) +
          (find fuel t pos beg).left_total_length := by
  have hI1b := balance_self_I1 fuel t hI1
  have hbne := balance_self_ne_leaf fuel hne hI1
  have htot := balance_self_total_length fuel t
  refine ⟨?_, ?_, ?_⟩
  · intro hlt
    exact findLoop_coverage (balance_self fuel t) pos (pos - beg) hI1b hbne
      (by omega) (by omega)
  · intro heq
    have hrel : pos - beg = (balance_self fuel t).total_length := by omega
    have h := findLoop_at_end (balance_self fuel t) pos hI1b hbne (by omega)
    simp only [find, hrel]
    exact ⟨h.2, h.1⟩
  · exact findLoop_position_cache (balance_self fuel t) pos (pos - beg) hbne

/-- Witness for C1: on the single-interval tree `exC1` (total length 3) with
`pos = 2`, `beg = 1`, the returned interval covers the position. -/
theorem C1_find_point_coverage_witness :
    I1 exC1 = true ∧
    (find 5 exC1 2 1).position ≤ 2 ∧
    2 < (find 5 exC1 2 1).position + (find 5 exC1 2 1).length :=
  ⟨by decide,
    (C1_find_point_coverage 5 2 1 exC1 (by decide) (by decide) (by decide)
      (by decide)).1 (by decide)⟩

/-- **C6**: `delete` merges the deleted cell's children into the subtree that
replaces it: with no children the structure is unchanged; with one child that
child replaces the cell; with two children the right subtree's root total is
raised by the left subtree's total (and keeps the right root's payload — the
deleted cell's own properties are discarded, so the result is independent of
the deleted payload), every cell along the left spine of the right subtree is
raised by the same amount, and the left subtree is attached, unchanged, as
the left child of the right subtree's leftmost cell. -/
theorem C6_delete_merges_children
    (la lc ra rc : Interval) (lb rb nd nd2 : Node) :
    delete (.node .leaf nd .leaf) = .node .leaf nd .leaf ∧
    delete (.node (.node la lb lc) nd .leaf) = .node la lb lc ∧
    delete (.node .leaf nd (.node ra rb rc)) = .node ra rb rc ∧
    (delete (.node (.node la lb lc) nd (.node ra rb rc))).total_length =
        rb.total_length + lb.total_length ∧
    (delete (.node (.node la lb lc) nd (.node ra rb rc))).node_data =
        { rb with total_length := rb.total_length + lb.total_length } ∧
    left_spine_totals (delete (.node (.node la lb lc) nd (.node ra rb rc))) =
        (left_spine_totals (.node ra rb rc)).map (· + lb.total_length) ++
          left_spine_totals (.node la lb lc) ∧
    descend_left (delete (.node (.node la lb lc) nd (.node ra rb rc)))
        (left_spine_totals (.node ra rb rc)).length = .node la lb lc ∧
    delete (.node (.node la lb lc) nd (.node ra rb rc)) =
        delete (.node (.node la lb lc) nd2 (.node ra rb rc)) := by
  refine ⟨rfl, rfl, rfl, ?_, ?_, ?_, ?_, ?_⟩
  · cases ra with
    | leaf => rfl
    | node x y z => rfl
  · cases ra with
    | leaf => rfl
    | node x y z => rfl
  · cases ra with
    | leaf => simp [delete, add_left_spine, left_spine_totals]
    | node x y z =>
      simp only [delete, add_left_spine, left_spine_totals, List.map_cons,
        List.cons_append, add_left_spine_go_spine]
  · cases ra with
    | leaf => rfl
    | node x y z =>
      simp only [delete, add_left_spine, left_spine_totals, List.length_cons, descend_left]
      exact add_left_spine_go_descend lb.total_length (.node la lb lc) x y z
  · cases ra with
    | leaf => rfl
    | node x y z => rfl

/-- **C4** (counterexample): `find` does not fail for an out-of-range
position.  On the single-interval tree `exC4` (total length 5), the position
7 is strictly beyond `total_length`, yet `find` returns the interval
unchanged: the source's only range check is
`debug_assert!(relative_position <= self.node.total_length)` — there is no
error path in `find` at all, so the claimed recoverable `PositionOutOfRange`
cannot be raised by it. -/
theorem C4_find_out_of_range_returns_interval :
    find 10 exC4 7 0 = exC4 ∧ exC4.total_length < 7 - 0 := by
  refine ⟨by decide, by decide⟩

/-- **C4 (amended)**: only `update` signals out-of-range positions.  Started
at the root of a tree satisfying I1 whose root position cache is consistent
(`left_total_length ≤ position`), with fuel at least the tree size, `update`
returns the `"Point before start of properties"` error exactly when the
position lies below the tree's span, the `"Point after end of properties"`
error exactly when it lies at or beyond the span's end (both are the cases
in which the walk runs out of parents while still out of range), and
otherwise finds an interval whose own range contains the position.  The
errors propagate to the caller (`error!` unwinds); `find` never raises
them. -/
theorem C4_amended_update_range_errors (fuel p : Nat)
    (l : Interval) (nd : Node) (r : Interval)
    (hI1 : I1 (.node l nd r) = true)
    (hpos : l.total_length ≤ nd.position)
    (hfuel : (Interval.node l nd r).size ≤ fuel) :
    (p < nd.position - l.total_length →
        update fuel ⟨l, nd, r, []⟩ p = .errBefore) ∧
    (nd.position + (Interval.node l nd r).length + r.total_length ≤ p →
        update fuel ⟨l, nd, r, []⟩ p = .errAfter) ∧
    (nd.position - l.total_length ≤ p →
     p < nd.position + (Interval.node l nd r).length + r.total_length →
        ∃ loc2 : Loc, update fuel ⟨l, nd, r, []⟩ p = .found loc2 ∧
          loc2.nd.position ≤ p ∧
          p < loc2.nd.position + (Interval.node loc2.l loc2.nd loc2.r).length) := by
  have hfuel1 : 0 < fuel := by
    have : 0 < (Interval.node l nd r).size := by simp [size]
    omega
  refine ⟨?_, ?_, ?_⟩
  · intro hp
    match fuel, hfuel1 with
    | n + 1, _ => exact update_root_err_before n l nd r p hp
  · intro hp
    match fuel, hfuel1 with
    | n + 1, _ => exact update_root_err_after n l nd r p hp
  · intro hlo hhi
    exact update_in_range fuel l nd r [] p hI1 hpos hfuel hlo hhi

/-- Witness for the amended C4: on the single-interval root `locC4`
(total length 5, position 0), position 7 is past the end and `update`
signals the after-end error. -/
theorem C4_amended_update_range_errors_witness :
    update 1 locC4 7 = .errAfter :=
  (C4_amended_update_range_errors 1 7 .leaf { Node.new with total_length := 5 } .leaf
    (by decide) (by decide) (by decide)).2.1 (by decide)

/-- **C5** (evaluation at the failing input): splitting the root `exC5`
(own length 3, position 0, non-default properties, heavy right child) at
offset 1 satisfies the claim's precondition `0 < 1 < length`, but the
post-split `balance_possible_root` rotates left at the root; the source then
returns `self.left_mut()`, which now holds the ORIGINAL interval (position
advanced to 1, own length 2, the original non-default properties) with the
new piece below it — not the newly created default piece of length 1 at
position 0 that the claim (and the function's doc comment) promise. -/
theorem C5_split_left_root_rebalance_returns_wrong_piece :
    I1 exC5 = true ∧ 0 < 1 ∧ 1 < exC5.length ∧
    (split_left true 5 exC5 1).left_tree.position = 1 ∧
    (split_left true 5 exC5 1).left_tree.length = 2 ∧
    (split_left true 5 exC5 1).left_tree.is_default = false ∧
    (split_left true 5 exC5 1).left_tree.node_data.write_protect = true := by
  refine ⟨by decide, by decide, by decide, by decide, by decide, by decide, by decide⟩

/-- **C2** (evaluation at the failing input): on the left-heavy chain `exC2`
the spec's condition for a right rotation holds — `old_diff = 4 > 0` and the
simulated post-rotation imbalance `|new_diff| = 0 < 4 = |old_diff|` — yet
`balance_self` performs no rotation at all: the source compares
`new_diff.abs() >= -old_diff`, which is vacuously true for positive
`old_diff`, so the `diff > 0` branch always breaks immediately. -/
theorem C2_balance_left_heavy_never_rotates :
    balance_self 100 exC2 = exC2 ∧
    I1 exC2 = true ∧
    0 < (exC2.left_total_length : Int) - (exC2.right_total_length : Int) ∧
    (((exC2.total_length : Int) - (exC2.left_tree.total_length : Int)
        + (exC2.left_tree.right_total_length : Int)
        - (exC2.left_tree.left_total_length : Int)).natAbs : Int)
      < (exC2.left_total_length : Int) - (exC2.right_total_length : Int) := by
  refine ⟨by decide, by decide, by decide, by decide⟩

/-- **C3** (evaluation at the failing input): `exC3` is a root interval with
a right child, so per the claim (and the function's own doc comment) `next`
must return the leftmost descendant of that right subtree; the source
computes that descendant inside `self.right_mut().map(..)` but discards the
closure's result, falls through to the parent ascent, and — the focus being
the root — returns `None` even though the focus is not the last interval. -/
theorem C3_next_with_right_child_returns_none :
    Interval.next exC3 = none ∧ exC3.r ≠ .leaf := by
  refine ⟨by decide, by decide⟩

/-- **C7**: both in-place rotations preserve the rotated subtree's
`total_length` (unconditionally: the cell at the subtree root gets the
pre-rotation total restored, and a missing required child makes the rotation
the identity).  In the spec's concrete scenario `exC7` (root total 10, one
left child total 5), `rotate_right` produces a root of total 10 with a right
child. -/
theorem C7_rotations_preserve_total_length :
    (∀ t : Interval, (rotate_left t).total_length = t.total_length ∧
        (rotate_right t).total_length = t.total_length) ∧
    (rotate_right exC7).has_right = true ∧
    (rotate_right exC7).total_length = 10 := by
  exact ⟨fun t => ⟨rotate_left_total_length t, rotate_right_total_length t⟩,
    by decide, by decide⟩

/-- **C8**: on any interval satisfying the total-length invariant I1 that has
the left child `rotate_right` requires, `rotate_left` applied immediately
after `rotate_right` restores the original tree exactly — in particular the
original `total_length` and the original child identities. -/
theorem C8_rotate_right_then_left_is_identity (t : Interval)
    (hI1 : I1 t = true) (hleft : t.has_left = true) :
    rotate_left (rotate_right t) = t := by
  match t with
  | .node (.node d b c) a e =>
    rw [I1_node_iff] at hI1
    obtain ⟨hroot, hl, he⟩ := hI1
    rw [I1_node_iff] at hl
    obtain ⟨hb, hd, hc⟩ := hl
    rw [total_length_node] at hroot
    simp only [rotate_right, rotate_left, Interval.node.injEq, Node.mk.injEq]
    have harg : a.total_length -
        (a.total_length - (b.total_length - c.total_length) - c.total_length) =
        b.total_length := by omega
    rw [harg]
    simp

/-- Witness for C8: the hypotheses are satisfiable and the round trip is the
identity on the concrete two-cell tree `exC8`. -/
theorem C8_rotate_right_then_left_is_identity_witness :
    I1 exC8 = true ∧ exC8.has_left = true ∧ rotate_left (rotate_right exC8) = exC8 :=
  ⟨by decide, by decide, C8_rotate_right_then_left_is_identity exC8 (by decide) (by decide)⟩

/-- **C9** (counterexample): rotating the childless interval `exC9` is a
silent no-op in both directions — the source returns early when the required
child is missing — refuting the claim that such a rotation raises a fatal
`ViolatedInvariant` and is "never a silent no-op". -/
theorem C9_missing_child_rotation_is_silent :
    rotate_left exC9 = exC9 ∧ rotate_right exC9 = exC9 :=
  ⟨rfl, rfl⟩

/-- **C9 (amended)**: rotating an interval without the required child
(`rotate_left` without a right child, `rotate_right` without a left child)
returns the subtree unchanged; no error value exists on this path — the
positivity of `total_length` and `length` is checked only by `debug_assert!`,
which is compiled out of release builds. -/
theorem C9_amended_missing_child_rotation_noop (t u : Interval)
    (ht : t.has_right = false) (hu : u.has_left = false) :
    rotate_left t = t ∧ rotate_right u = u := by
  constructor
  · match t, ht with
    | .leaf, _ => rfl
    | .node l nd .leaf, _ => rfl
    | .node l nd (.node a b c), ht => simp [has_right] at ht
  · match u, hu with
    | .leaf, _ => rfl
    | .node .leaf nd r, _ => rfl
    | .node (.node a b c) nd r, hu => simp [has_left] at hu

/-- Witness for the amended C9: `exC8` has no right child, `exC9b` no left
child, and both rotations leave them unchanged. -/
theorem C9_amended_missing_child_rotation_noop_witness :
    rotate_left exC8 = exC8 ∧ rotate_right exC9b = exC9b :=
  C9_amended_missing_child_rotation_noop exC8 exC9b (by decide) (by decide)

/-- **C10** (counterexample): after `reset`, the `write_protect` flag of
`exC10` is still `true` — the source's `Node { total_length: 0, position: 0,
plist: Qnil, ..self.node }` keeps the four boolean flags — refuting the claim
that all four flags are back at their default values. -/
theorem C10_reset_keeps_write_protect :
    ¬ (reset exC10).node_data.write_protect = false := by decide

/-- **C10 (amended)**: `reset` clears both children and sets
`total_length = 0`, `position = 0` and an empty property list (`is_default`
holds), but the four boolean flags keep their previous values. -/
theorem C10_amended_reset_state (l r : Interval) (nd : Node) :
    (reset (.node l nd r)).has_left = false ∧
    (reset (.node l nd r)).has_right = false ∧
    (reset (.node l nd r)).total_length = 0 ∧
    (reset (.node l nd r)).position = 0 ∧
    (reset (.node l nd r)).is_default = true ∧
    (reset (.node l nd r)).node_data.write_protect = nd.write_protect ∧
    (reset (.node l nd r)).node_data.visible = nd.visible ∧
    (reset (.node l nd r)).node_data.front_sticky = nd.front_sticky ∧
    (reset (.node l nd r)).node_data.rear_sticky = nd.rear_sticky := by
  simp [reset, has_left, has_right, total_length, position, is_default, node_data,
    LispObject.is_nil, Qnil]

end Remacs
